import Mathlib

/-!
Verification of docpup (documentation ingestion pipeline).

This file shallowly embeds the parts of the docpup source that the
claims are about:

* `src/gitignore.ts` (`updateGitignore`) — the idempotent gitignore
  section merger;
* `src/preprocess.ts` (`rewriteHref`, `resolveInside`,
  `getSingleSourcePath`, `collectHtmlFiles`, `runHtmlPreprocess`);
* `src/cli.ts` (`generateDocs`, `mergeScanConfig`, `parseOnly`);
* `src/config.ts` (the `repoSchema` refinement checks).

JavaScript strings are modelled as Lean `String`s; the JS string
operations used by the source (`trim`, `split`, `startsWith`,
`endsWith`, `indexOf`, `slice`, `toLowerCase`, `join`) are modelled by
explicit functions on the underlying `List Char`.  `toLowerCase` is
modelled by ASCII case folding, which is exact on the ASCII suffixes
the source compares.  Fallible code returns `Option`/`Except`;
filesystem writes are modelled by returning the value that would be
written (`none` = no write).
-/

namespace Docpup

/-- Models the JavaScript whitespace class used by `String.prototype.trim`
(WhiteSpace and LineTerminator code points). -/
def isJsWhitespace (c : Char) : Bool :=
  c = ' ' || c = '\t' || c = '\n' || c = '\x0b' || c = '\x0c' || c = '\r' ||
  c = '\u00A0' || c = '\u1680' || ('\u2000' ≤ c && c ≤ '\u200A') ||
  c = '\u2028' || c = '\u2029' || c = '\u202F' || c = '\u205F' ||
  c = '\u3000' || c = '\uFEFF'

/-- Drops JS whitespace from both ends of a character list. -/
def trimCh (l : List Char) : List Char :=
  ((l.dropWhile isJsWhitespace).reverse.dropWhile isJsWhitespace).reverse

/-- Models `s.trim()`. -/
def jsTrim (s : String) : String := ⟨trimCh s.data⟩

/-- Models `s.startsWith(p)`. -/
def strStartsWith (s p : String) : Bool := p.data.isPrefixOf s.data

/-- Models `s.endsWith(p)`. -/
def strEndsWith (s p : String) : Bool := p.data.isSuffixOf s.data

/-- Models `s.toLowerCase()` (ASCII case folding). -/
def lowerStr (s : String) : String := ⟨s.data.map Char.toLower⟩

/-- Splits a character list at every occurrence of `sep`
(the pieces do not contain `sep`; `n` separators yield `n+1` pieces). -/
def splitChar (sep : Char) : List Char → List (List Char)
  | [] => [[]]
  | c :: rest =>
    if c = sep then [] :: splitChar sep rest
    else
      match splitChar sep rest with
      | [] => [[c]]
      | l :: ls => (c :: l) :: ls

/-- Removes one trailing carriage return, if present. -/
def stripCRCh (l : List Char) : List Char :=
  if l.getLast? = some '\r' then l.dropLast else l

/-- Applies `f` to every element except the last one. -/
def mapExceptLast (f : α → α) : List α → List α
  | [] => []
  | [a] => [a]
  | a :: b :: rest => f a :: mapExceptLast f (b :: rest)

/-- Models `content.split(/\r?\n/)`: splitting at `'\n'` and removing the
carriage return of every `"\r\n"` separator is exactly splitting at the
regex `\r?\n`, because a piece produced by splitting at `'\n'` ends in
`'\r'` precisely when the separator that followed it was `"\r\n"`. -/
def splitLinesCh (l : List Char) : List (List Char) :=
  mapExceptLast stripCRCh (splitChar '\n' l)

/-- String-level wrapper for `splitLinesCh`. -/
def splitLinesJs (s : String) : List String :=
  (splitLinesCh s.data).map (fun l => (⟨l⟩ : String))

/-- Models `parts.join(sep)`. -/
def joinWith (sep : String) : List String → String
  | [] => ""
  | [a] => a
  | a :: b :: rest => a ++ sep ++ joinWith sep (b :: rest)

/-- Models the final write of `updateGitignore`:
`updated.endsWith("\n") ? updated : updated + "\n"`. -/
def finalizeNL (s : String) : String :=
  if strEndsWith s "\n" then s else s ++ "\n"

/-- Models `s.indexOf(c)` (as `none` for `-1`). -/
def idxOfCh (c : Char) : List Char → Option Nat
  | [] => none
  | x :: xs => if x = c then some 0 else (idxOfCh c xs).map (· + 1)

/-! ### Gitignore merger (`src/gitignore.ts`, `updateGitignore`) -/

/-- The arguments of `updateGitignore` apart from the repo root
(the target file's content is passed separately). -/
structure GitignoreArgs where
  docsEntry : Option String
  docsSubDirEntries : List String
  indexEntry : Option String
  sectionHeader : String

/-- Models `[args.docsEntry, ...(args.docsSubDirEntries ?? []), args.indexEntry]
.filter(Boolean)`: absent and empty entries are dropped. -/
def entriesOf (args : GitignoreArgs) : List String :=
  (args.docsEntry.toList ++ args.docsSubDirEntries ++ args.indexEntry.toList).filter
    (fun e => e ≠ "")

/-- The managed section's header line, `"# " + sectionHeader`. -/
def headerLineOf (sectionHeader : String) : String := "# " ++ sectionHeader

/-- Models `lines.findIndex((line) => line.trim() === headerLine)`. -/
def findHeaderIdx (headerLine : String) : List String → Option Nat
  | [] => none
  | l :: ls =>
    if jsTrim l = headerLine then some 0
    else (findHeaderIdx headerLine ls).map (· + 1)

/-- Models `lines.splice(n, 0, a)`. -/
def insertAt (n : Nat) (a : α) (l : List α) : List α :=
  l.take n ++ a :: l.drop n

/-- Models the header-placement step of `updateGitignore`: reuse an
existing header line, else append a blank separator (only when the file
is non-empty and does not end with a blank line) followed by the header.
Returns the lines together with the header's index. -/
def placeHeader (headerLine : String) (lines : List String) : List String × Nat :=
  match findHeaderIdx headerLine lines with
  | some i => (lines, i)
  | none =>
    let lines' :=
      match lines.getLast? with
      | some last => if jsTrim last = "" then lines else lines ++ [""]
      | none => lines
    (lines' ++ [headerLine], lines'.length)

/-- Models the insertion loop of `updateGitignore`: each entry not in the
`existing` set (the trimmed lines of the original file, growing with the
raw entries inserted so far) is spliced in immediately after the header,
preserving the relative order of newly inserted entries. -/
def insertEntries : List String → Nat → List String → List String → List String
  | lines, _, _, [] => lines
  | lines, pos, seen, e :: rest =>
    if e ∈ seen then insertEntries lines pos seen rest
    else insertEntries (insertAt pos e lines) (pos + 1) (e :: seen) rest

/-- The line-level pipeline of `updateGitignore`: place the header, then
splice the entries in right after it, checking presence against the set
of trimmed lines of the original file. -/
def mergedLines (headerLine : String) (lines entries : List String) : List String :=
  insertEntries (placeHeader headerLine lines).1
    ((placeHeader headerLine lines).2 + 1) (lines.map jsTrim) entries

/-- Models `updateGitignore` of `src/gitignore.ts` as a pure function
from the current content of the target `.gitignore` (`none` = the file
does not exist; reading a missing file yields `""`) to the content
written back (`none` = no write happens). -/
def updateGitignore (content : Option String) (args : GitignoreArgs) : Option String :=
  let lines := splitLinesJs (content.getD "")
  let headerLine := headerLineOf args.sectionHeader
  let entries := entriesOf args
  if entries = [] then none
  else some (finalizeNL (joinWith "\n" (mergedLines headerLine lines entries)))

/-- Number of lines of `ls` whose trimmed form is exactly `e`
(the "exact full-line match after trimming" of the spec). -/
def countTrim (ls : List String) (e : String) : Nat :=
  (ls.map jsTrim).count e

/-- Number of lines of the file content `s` whose trimmed form is `e`. -/
def lineCountTrim (s e : String) : Nat := countTrim (splitLinesJs s) e

/-- Number of lines of the file content `s` exactly equal to `e`. -/
def exactLineCount (s e : String) : Nat := (splitLinesJs s).count e

/-- String-level wrapper for `stripCRCh`. -/
def stripCRStr (s : String) : String := ⟨stripCRCh s.data⟩

/-- First-occurrence deduplication relative to an initial `seen` set;
describes which entries the insertion loop of `updateGitignore` actually
inserts, in order. -/
def dedupSeen (seen : List String) : List String → List String
  | [] => []
  | e :: rest =>
    if e ∈ seen then dedupSeen seen rest
    else e :: dedupSeen (e :: seen) rest

/-! ### HTML link rewriting (`src/preprocess.ts`, `rewriteHref`) -/

/-- Character class `[a-zA-Z0-9+.-]` of the scheme regex. -/
def isSchemeChar (c : Char) : Bool :=
  c.isAlpha || c.isDigit || c = '+' || c = '.' || c = '-'

/-- Scans scheme characters until a `':'`. -/
def schemeScan : List Char → Bool
  | [] => false
  | c :: rest =>
    if c = ':' then true
    else if isSchemeChar c then schemeScan rest
    else false

/-- Models `/^[a-zA-Z][a-zA-Z0-9+.-]*:/.test(s)`. -/
def hasScheme (s : String) : Bool :=
  match s.data with
  | [] => false
  | c :: rest => c.isAlpha && schemeScan rest

/-- Models `s.slice(0, n)` for `0 ≤ n` (by code points). -/
def strTake (s : String) (n : Nat) : String := ⟨s.data.take n⟩

/-- Models `s.slice(n)` for `0 ≤ n` (by code points). -/
def strDrop (s : String) (n : Nat) : String := ⟨s.data.drop n⟩

/-- Models `s.length` (by code points). -/
def strLen (s : String) : Nat := s.data.length

/-- Models `rewriteHref` of `src/preprocess.ts`.  Returns `none` when the
href is left untouched — the caller (`runHtmlPreprocess`) only sets the
`href` attribute when the result is non-null — and `some r` when the
attribute is rewritten to `r`. -/
def rewriteHref (href : String) : Option String :=
  let trimmed := jsTrim href
  if trimmed = "" then none
  else if strStartsWith trimmed "#" then none
  else if strStartsWith trimmed "//" then none
  else if hasScheme trimmed then none
  else
    let hash := match idxOfCh '#' trimmed.data with
      | some i => strDrop trimmed i
      | none => ""
    let withoutHash := match idxOfCh '#' trimmed.data with
      | some i => strTake trimmed i
      | none => trimmed
    let query := match idxOfCh '?' withoutHash.data with
      | some i => strDrop withoutHash i
      | none => ""
    let pathPart := match idxOfCh '?' withoutHash.data with
      | some i => strTake withoutHash i
      | none => withoutHash
    if pathPart = "" then none
    else if strEndsWith (lowerStr pathPart) ".html" then
      some (strTake pathPart (strLen pathPart - 5) ++ ".md" ++ query ++ hash)
    else if strEndsWith (lowerStr pathPart) ".htm" then
      some (strTake pathPart (strLen pathPart - 4) ++ ".md" ++ query ++ hash)
    else none

/-- Splits at the first occurrence of `c`: the part strictly before it
and the part from it on (`(l, [])` when absent). -/
def splitAtFirstCh (c : Char) : List Char → List Char × List Char
  | [] => ([], [])
  | x :: xs =>
    if x = c then ([], x :: xs)
    else
      let p := splitAtFirstCh c xs
      (x :: p.1, p.2)

/-- String-level wrapper for `splitAtFirstCh`. -/
def splitAtFirst (c : Char) (s : String) : String × String :=
  let p := splitAtFirstCh c s.data
  (⟨p.1⟩, ⟨p.2⟩)

/-- Spec-side decomposition of an href (claim C2's wording): the fragment
is the part from the first `'#'`, the query string is the part of the
remainder from the first `'?'`, the path component is what precedes
both.  Returns (path, query, fragment). -/
def hrefParts (href : String) : String × String × String :=
  let f := splitAtFirst '#' href
  let q := splitAtFirst '?' f.1
  (q.1, q.2, f.2)

/-- Spec-side replacement of a trailing suffix of `n` code points by
`".md"`. -/
def replaceSuffixMd (path : String) (n : Nat) : String :=
  strTake path (strLen path - n) ++ ".md"

/-- The claim's description of href rewriting, written from the spec
sentence: the href is untouched if empty, a pure fragment,
protocol-relative, or carrying an explicit URI scheme; otherwise, when
its path component ends with `.html`/`.htm` case-insensitively, that
suffix becomes `.md` and the query string and fragment are reappended
unchanged. -/
def rewriteHrefSpec (href : String) : Option String :=
  if href = "" then none
  else if strStartsWith href "#" then none
  else if strStartsWith href "//" then none
  else if hasScheme href then none
  else
    let parts := hrefParts href
    if strEndsWith (lowerStr parts.1) ".html" then
      some (replaceSuffixMd parts.1 5 ++ parts.2.1 ++ parts.2.2)
    else if strEndsWith (lowerStr parts.1) ".htm" then
      some (replaceSuffixMd parts.1 4 ++ parts.2.1 ++ parts.2.2)
    else none


/-! ### Path containment (`resolveInside`) -/

/-- One component step of posix path resolution: empty and `"."`
components are skipped, `".."` pops one segment (clamping at the
filesystem root), anything else is appended. -/
def resolveStep (acc : List String) (comp : String) : List String :=
  if comp = "" ∨ comp = "." then acc
  else if comp = ".." then acc.dropLast
  else acc ++ [comp]

/-- Models `path.resolve(root, input)` (posix), with the already-absolute
`root` given as a normalized segment list: an absolute `input` restarts
from the filesystem root, otherwise its `"/"`-separated components are
applied to `root`. -/
def resolvePath (root : List String) (input : String) : List String :=
  ((splitChar '/' input.data).map (fun l => (⟨l⟩ : String))).foldl resolveStep
    (if strStartsWith input "/" then [] else root)

/-- Length of the longest common prefix of two segment lists. -/
def commonPrefixLen : List String → List String → Nat
  | a :: as, b :: bs => if a = b then commonPrefixLen as bs + 1 else 0
  | _, _ => 0

/-- Models `path.relative(from, to)` on normalized absolute segment
lists: one `".."` for every segment of `from` past the common prefix,
followed by the remaining segments of `to`. -/
def relativeSegs (f t : List String) : List String :=
  List.replicate (f.length - commonPrefixLen f t) ".." ++ t.drop (commonPrefixLen f t)

/-- Models `resolveInside(root, ...segments)` as defined identically in
`src/preprocess.ts` (lines 19-26) and `src/cli.ts`: resolve the path,
compute the relative path from the root, and throw when that relative
path starts with `".."` or is absolute; otherwise return the resolved
path unchanged. -/
def resolveInside (root : List String) (input : String) : Except String (List String) :=
  let resolved := resolvePath root input
  let rel := joinWith "/" (relativeSegs root resolved)
  if strStartsWith rel ".." || strStartsWith rel "/" then
    Except.error ("Resolved path escapes root: " ++ joinWith "/" resolved)
  else Except.ok resolved


/-! ### Repository configuration (`src/types.ts`, `src/config.ts`,
`getSingleSourcePath` of `src/preprocess.ts`) -/

/-- The tagged preprocess directive union of `src/types.ts`. -/
inductive PreprocessDirective
  | sphinx (workDir : Option String) (builder : Option String) (outputDir : Option String)
  | html (workDir : Option String) (outputDir : Option String) (selector : Option String)
      (rewriteLinks : Option Bool)
  deriving DecidableEq

/-- The claim-relevant fields of a repository configuration
(`RepoConfig` of `src/types.ts`). -/
structure RepoCfg where
  name : String
  repo : String
  sourcePath : Option String
  sourcePaths : Option (List String)
  preprocess : Option PreprocessDirective
  deriving DecidableEq

/-- Models `getSingleSourcePath` of `src/preprocess.ts` (lines 28-41):
a present, non-empty `sourcePaths` must hold exactly one path; otherwise
`sourcePath` is used; with neither, an error is thrown. -/
def getSingleSourcePath (r : RepoCfg) : Except String String :=
  match r.sourcePaths with
  | some (p :: rest) =>
    if (p :: rest).length > 1 then
      Except.error ("Repo " ++ r.name ++ ": preprocess requires a single sourcePath")
    else Except.ok p
  | _ =>
    match r.sourcePath with
    | some p => Except.ok p
    | none =>
      Except.error ("Repo " ++ r.name ++ ": either sourcePath or sourcePaths required")

/-- Models the structural checks of `repoSchema` in `src/config.ts`
that the claim cites: `sourcePaths` (when present) must be non-empty
(`.min(1)`); either `sourcePath` or `sourcePaths` must be provided
(first `.refine`); and `preprocess` may not be combined with more than
one source path (second `.refine`). -/
def repoSchemaAccepts (r : RepoCfg) : Bool :=
  (match r.sourcePaths with
    | some l => decide (l.length ≥ 1)
    | none => true) &&
  (r.sourcePath.isSome || r.sourcePaths.isSome) &&
  !(r.preprocess.isSome &&
    (match r.sourcePaths with
      | some l => decide (l.length > 1)
      | none => false))

/-! ### Scan configuration merge (`mergeScanConfig` of `src/cli.ts`) -/

/-- `ScanConfig` of `src/types.ts`. -/
structure ScanCfg where
  includeMd : Bool
  includeMdx : Bool
  includeHiddenDirs : Option Bool
  excludeDirs : List String
  extensions : Option (List String)
  deriving DecidableEq

/-- `Partial<ScanConfig>`: a field is `none` when the key is absent from
the override object. -/
structure ScanOverride where
  includeMd : Option Bool
  includeMdx : Option Bool
  includeHiddenDirs : Option Bool
  excludeDirs : Option (List String)
  extensions : Option (List String)
  deriving DecidableEq

/-- Models `Array.from(new Set(list))`: insertion order is kept, so the
first occurrence of each element survives. -/
def jsSetDedup (l : List String) : List String := go [] l
  where go : List String → List String → List String
    | _, [] => []
    | seen, x :: xs => if x ∈ seen then go seen xs else x :: go (x :: seen) xs

/-- Deduplication as the claim words it: keep each element's first
occurrence, dropping the later duplicates. -/
def dedupKeepFirst : List String → List String
  | [] => []
  | x :: xs => x :: dedupKeepFirst (xs.filter (fun y => y ≠ x))
  termination_by l => l.length
  decreasing_by
    simp only [List.length_cons]
    exact Nat.lt_succ_of_le (List.length_filter_le _ _)

/-- Models `mergeScanConfig` of `src/cli.ts` (lines 114-127): without an
override the base is returned; otherwise the object spread lets every
override field replace the base's, and `excludeDirs` is overwritten by
the deduplicated concatenation of base then override entries when the
override supplies it. -/
def mergeScanConfig (base : ScanCfg) (overrides : Option ScanOverride) : ScanCfg :=
  match overrides with
  | none => base
  | some o =>
    let mergedExcludeDirs :=
      match o.excludeDirs with
      | some e => jsSetDedup (base.excludeDirs ++ e)
      | none => base.excludeDirs
    { includeMd := o.includeMd.getD base.includeMd
      includeMdx := o.includeMdx.getD base.includeMdx
      includeHiddenDirs :=
        match o.includeHiddenDirs with
        | some b => some b
        | none => base.includeHiddenDirs
      excludeDirs := mergedExcludeDirs
      extensions :=
        match o.extensions with
        | some e => some e
        | none => base.extensions }

/-! ### HTML preprocessing core (`collectHtmlFiles`, `runHtmlPreprocess`
of `src/preprocess.ts`) -/

/-- A directory tree entry; file contents are irrelevant to the claim. -/
inductive FsNode
  | file (name : String)
  | dir (name : String) (children : List FsNode)

/-- Models `path.extname(name).` for a bare filename: the extension
starts at the last `'.'` unless that dot is the name's first character
(dotfiles have no extension). -/
def extnameOf (name : String) : String :=
  match idxOfCh '.' name.data.reverse with
  | none => ""
  | some ri =>
    let i := name.data.length - 1 - ri
    if i = 0 then "" else ⟨name.data.drop i⟩

/-- The file filter of `collectHtmlFiles`:
`ext === ".html" || ext === ".htm"` on the lower-cased extension. -/
def isHtmlFile (name : String) : Bool :=
  lowerStr (extnameOf name) = ".html" || lowerStr (extnameOf name) = ".htm"

/-- Models `shouldSkipDir`: the directory (given by its path relative to
`workDir`) equals or lies beneath the skipped `outputDir` subtree.
`skip` is `outputDir`'s path relative to `workDir` when `outputDir` lies
inside it, and `none` otherwise (then no walked directory matches). -/
def underSkip (skip : Option (List String)) (cur : List String) : Bool :=
  match skip with
  | some sk => sk.isPrefixOf cur
  | none => false

mutual
/-- The walk of `collectHtmlFiles` over one directory entry: hidden
directories are skipped unconditionally; entering a directory re-checks
`shouldSkipDir`; `.html`/`.htm` files are collected with their path. -/
def walkNode (skip : Option (List String)) (cur : List String) :
    FsNode → List (List String)
  | .file f => if isHtmlFile f then [cur ++ [f]] else []
  | .dir d ch =>
    if strStartsWith d "." then []
    else if underSkip skip (cur ++ [d]) then []
    else walkList skip (cur ++ [d]) ch

/-- The walk over a directory's entries, in order. -/
def walkList (skip : Option (List String)) (cur : List String) :
    List FsNode → List (List String)
  | [] => []
  | e :: es => walkNode skip cur e ++ walkList skip cur es
end

/-- Models `collectHtmlFiles(workDir, outputDir)`: the walk starts at the
work directory root (which is itself subject to the skip check). -/
def collectHtmlFiles (skip : Option (List String)) (root : List FsNode) :
    List (List String) :=
  if underSkip skip [] then [] else walkList skip [] root

/-- The error message thrown by `runHtmlPreprocess` when nothing was
converted. -/
def noMarkdownMsg (name : String) : String :=
  "HTML preprocess produced no markdown files for " ++ name ++
    ". Check workDir and outputDir."

/-- Models the collect-convert-write core of `runHtmlPreprocess`
(`src/preprocess.ts` lines 213-272), after `workDir` is validated and
`outputDir` cleared: collect the `.html`/`.htm` files under `workDir`
(skipping the `outputDir` subtree and hidden directories); throw
"produced no markdown files" when none were found; otherwise convert and
write each file (`written` counts the writes, one per collected file as
in the source loop) and throw the same error when `written` is zero;
else return the output directory. -/
def runHtmlPreprocessCore (repoName : String) (workTree : List FsNode)
    (skip : Option (List String)) (outputDir : String) : Except String String :=
  let htmlFiles := collectHtmlFiles skip workTree
  if htmlFiles.length = 0 then Except.error (noMarkdownMsg repoName)
  else
    let written := htmlFiles.foldl (fun w _ => w + 1) 0
    if written = 0 then Except.error (noMarkdownMsg repoName)
    else Except.ok outputDir

/-! ### Orchestrator summary (`generateDocs` of `src/cli.ts`) -/

/-- The outcome of one repository's external pipeline steps:
`sparseCheckoutRepo` returning `{ok: false, error}`, any step of
preprocess/scan/copy/index throwing, or full success. -/
inductive RepoOutcome
  | checkoutFailed (reason : String)
  | stepFailed (reason : String)
  | ok
  deriving DecidableEq

/-- A repository together with the outcome its pipeline produces; the
external effects (git, filesystem, subprocesses) are inputs of the
model. -/
structure RepoRun where
  name : String
  outcome : RepoOutcome
  deriving DecidableEq

/-- A `{name, error}` failure record of the summary. -/
structure RepoFailure where
  name : String
  error : String
  deriving DecidableEq

/-- The `GenerateSummary` of `src/cli.ts`. -/
structure GenerateSummary where
  total : Nat
  succeeded : Nat
  failed : Nat
  failures : List RepoFailure

/-- Models `parseOnly`: split the `--only` value at commas, trim each
name, drop empties. -/
def parseOnly (only : Option String) : List String :=
  match only with
  | none => []
  | some s =>
    (((splitChar ',' s.data).map (fun l => (⟨l⟩ : String))).map jsTrim).filter
      (fun n => n ≠ "")

/-- The repositories surviving the `--only` filter. -/
def filteredRepos (repos : List RepoRun) (only : Option String) : List RepoRun :=
  if parseOnly only = [] then repos
  else repos.filter (fun r => r.name ∈ parseOnly only)

/-- One repository's contribution to the orchestrator's counters (the
task body of `generateDocs`): a failed checkout or a thrown step error
increments `failed` and records `{name, error}`; otherwise `succeeded`
is incremented.  State is (succeeded, failed, failures). -/
def processRepo (acc : Nat × Nat × List RepoFailure) (r : RepoRun) :
    Nat × Nat × List RepoFailure :=
  match r.outcome with
  | .checkoutFailed e => (acc.1, acc.2.1 + 1, acc.2.2 ++ [⟨r.name, e⟩])
  | .stepFailed e => (acc.1, acc.2.1 + 1, acc.2.2 ++ [⟨r.name, e⟩])
  | .ok => (acc.1 + 1, acc.2.1, acc.2.2)

/-- The failure record a repository contributes to the summary, if any. -/
def failureOf (r : RepoRun) : Option RepoFailure :=
  match r.outcome with
  | .checkoutFailed e => some ⟨r.name, e⟩
  | .stepFailed e => some ⟨r.name, e⟩
  | .ok => none

/-- Models `generateDocs` of `src/cli.ts` at the granularity of the
claim: configuration loading is outside the model (its errors abort
before any repository is processed), the per-repository pipeline
outcomes are inputs, the orchestrator filters by `--only`, raises only
when the filtered list is empty, and otherwise folds every repository
into the counters — each task's `catch` turns a failure into a record,
never an abort — and returns the summary. -/
def generateDocs (repos : List RepoRun) (only : Option String) :
    Except String GenerateSummary :=
  let filtered := filteredRepos repos only
  if filtered = [] then Except.error "No repos matched the provided filter."
  else
    let acc := filtered.foldl processRepo (0, 0, [])
    Except.ok ⟨filtered.length, acc.1, acc.2.1, acc.2.2⟩

/-! ### Orchestrator event order (`generateDocs` of `src/cli.ts`) -/

/-- The orchestration events claim C7 is about. -/
inductive OrchEvent
  | gitignoreInvoke
  | taskScheduled (name : String)
  | awaitTasks
  | awaitGitignore
  deriving DecidableEq

/-- The order of orchestration events in `generateDocs`, as the source
executes them: the single `updateGitignore` call — guarded by an entry
being present — is issued (src/cli.ts lines 227-239) before the
per-repository tasks are created by `repos.map(limit(...))` (line 248);
`Promise.all(tasks)` is awaited (line 343) and only then the gitignore
promise (line 344). -/
def generateTrace (filteredNames : List String) (docsEntry : Option String)
    (docsSubDirEntries : List String) (indexEntry : Option String) : List OrchEvent :=
  (if docsEntry.isSome || !docsSubDirEntries.isEmpty || indexEntry.isSome then
    [OrchEvent.gitignoreInvoke]
  else []) ++
  filteredNames.map OrchEvent.taskScheduled ++
  [OrchEvent.awaitTasks, OrchEvent.awaitGitignore]


/-! ### Basic facts about the string model -/

theorem str_append_assoc (a b c : String) : a ++ b ++ c = a ++ (b ++ c) :=
  String.ext (by simp [String.data_append])

theorem str_empty_append (a : String) : "" ++ a = a :=
  String.ext (by simp [String.data_append])

theorem headerLineOf_data (h : String) :
    (headerLineOf h).data = '#' :: ' ' :: h.data := by
  simp [headerLineOf, String.data_append]

theorem headerLineOf_ne_empty (h : String) : headerLineOf h ≠ "" := by
  intro heq
  have := congrArg String.data heq
  rw [headerLineOf_data] at this
  simp at this

theorem jsTrim_empty : jsTrim "" = "" := rfl

theorem splitLinesJs_empty : splitLinesJs "" = [""] := rfl

theorem entriesOf_ne_empty (args : GitignoreArgs) :
    ∀ x ∈ entriesOf args, x ≠ "" := by
  intro x hx
  have := List.of_mem_filter hx
  simpa using this

/-! ### Structure of the insertion loop -/

theorem insertAt_of_le {l : List α} {n : Nat} (a : α) (h : l.length ≤ n) :
    insertAt n a l = l ++ [a] := by
  simp [insertAt, List.take_of_length_le h, List.drop_of_length_le h]

theorem insertEntries_of_le :
    ∀ (entries lines : List String) (pos : Nat) (seen : List String),
      lines.length ≤ pos →
      insertEntries lines pos seen entries = lines ++ dedupSeen seen entries := by
  intro entries
  induction entries with
  | nil => intro lines pos seen _; simp [insertEntries, dedupSeen]
  | cons e rest ih =>
    intro lines pos seen h
    by_cases he : e ∈ seen
    · simp only [insertEntries, dedupSeen, if_pos he]
      exact ih lines pos seen h
    · simp only [insertEntries, dedupSeen, if_neg he]
      rw [insertAt_of_le e h,
        ih (lines ++ [e]) (pos + 1) (e :: seen) (by simp; omega)]
      simp

/-! ### Claim C6 -/

/-- Claim C6: for every call of the gitignore merger where the entry
list, after dropping empty entries, is empty, the call is a no-op: no
write occurs, so a pre-existing target file is left byte-for-byte
unchanged. -/
theorem updateGitignore_empty_entries_noop
    (content : Option String) (args : GitignoreArgs)
    (h : entriesOf args = []) : updateGitignore content args = none := by
  simp [updateGitignore, h]

/-- Witness for C6: a call with only an empty entry and a pre-existing
file writes nothing. -/
theorem updateGitignore_empty_entries_noop_witness :
    entriesOf ⟨none, [""], none, "Docpup generated docs"⟩ = [] ∧
    updateGitignore (some "node_modules/\n")
      ⟨none, [""], none, "Docpup generated docs"⟩ = none :=
  ⟨by decide, updateGitignore_empty_entries_noop _ _ (by decide)⟩

/-! ### Claim C9 -/

/-- Claim C9: with at least one non-empty entry and a missing (or empty)
target file, the created file begins with an empty first line — a
leading newline — before the `"# " + sectionHeader` header line, because
splitting the empty content yields one empty line that is preserved in
the output. -/
theorem updateGitignore_fresh_file_leading_newline
    (content : Option String) (args : GitignoreArgs)
    (hne : entriesOf args ≠ [])
    (hc : content = none ∨ content = some "") :
    ∃ rest, updateGitignore content args =
      some ("\n" ++ headerLineOf args.sectionHeader ++ "\n" ++ rest) := by
  obtain ⟨e, es, hEs⟩ : ∃ e es, entriesOf args = e :: es := by
    cases h : entriesOf args with
    | nil => exact absurd h hne
    | cons e es => exact ⟨e, es, rfl⟩
  have hc0 : content.getD "" = "" := by rcases hc with h | h <;> simp [h]
  have hhl0 : ¬ (jsTrim "" = headerLineOf args.sectionHeader) := by
    rw [jsTrim_empty]
    exact Ne.symm (headerLineOf_ne_empty _)
  have hPlace : placeHeader (headerLineOf args.sectionHeader) [""] =
      (["", headerLineOf args.sectionHeader], 1) := by
    simp [placeHeader, findHeaderIdx, jsTrim_empty,
      Ne.symm (headerLineOf_ne_empty args.sectionHeader)]
  have heNe : e ≠ "" := by
    apply entriesOf_ne_empty args
    rw [hEs]; exact List.mem_cons_self e es
  have hIns : insertEntries ["", headerLineOf args.sectionHeader] 2
      [""] (e :: es) =
      ["", headerLineOf args.sectionHeader] ++
        (e :: dedupSeen [e, ""] es) := by
    rw [insertEntries_of_le (e :: es) _ 2 [""] (by simp)]
    have : dedupSeen [""] (e :: es) = e :: dedupSeen [e, ""] es := by
      simp [dedupSeen, heNe]
    rw [this]
  simp only [updateGitignore, mergedLines, hc0, splitLinesJs_empty, hEs]
  rw [if_neg (by simp)]
  simp only [List.map_cons, List.map_nil, jsTrim_empty, hPlace, hIns]
  set J := joinWith "\n" (e :: dedupSeen [e, ""] es) with hJ
  have hfull : joinWith "\n"
      (["", headerLineOf args.sectionHeader] ++ (e :: dedupSeen [e, ""] es)) =
      "\n" ++ headerLineOf args.sectionHeader ++ "\n" ++ J := by
    simp only [List.cons_append, List.nil_append, joinWith, hJ]
    apply String.ext
    simp [String.data_append]
  rw [hfull]
  by_cases hfin : strEndsWith ("\n" ++ headerLineOf args.sectionHeader ++ "\n" ++ J) "\n"
  · exact ⟨J, by simp [finalizeNL, hfin]⟩
  · refine ⟨J ++ "\n", ?_⟩
    simp only [finalizeNL, hfin, if_false]
    congr 1
    apply String.ext
    simp [String.data_append]

/-- Witness for C9: one non-empty entry and a missing file. -/
theorem updateGitignore_fresh_file_leading_newline_witness :
    entriesOf ⟨some "docs/", [], none, "Docpup generated docs"⟩ ≠ [] ∧
    ∃ rest, updateGitignore none ⟨some "docs/", [], none, "Docpup generated docs"⟩ =
      some ("\n" ++ headerLineOf "Docpup generated docs" ++ "\n" ++ rest) :=
  ⟨by decide,
    updateGitignore_fresh_file_leading_newline none _ (by decide) (Or.inl rfl)⟩

/-! ### Claim C5 -/

/-- Counterexample to claim C5 as stated: calling the gitignore merger
twice with the identical non-empty entry set `{" a"}` (an entry carrying
a leading space) produces a file in which the entry `" a"` occurs twice
as a line, not exactly once.  The presence check compares the raw entry
against the trimmed lines of the file, so an entry that differs from its
trimmed form is re-inserted by every call. -/
theorem updateGitignore_whitespace_entry_counterexample :
    updateGitignore (updateGitignore none ⟨some " a", [], none, "H"⟩)
      ⟨some " a", [], none, "H"⟩ = some "\n# H\n a\n a\n" ∧
    exactLineCount "\n# H\n a\n a\n" " a" = 2 := by decide

/-! Counting lemmas for the amended C5. -/

theorem countTrim_append (l₁ l₂ : List String) (e : String) :
    countTrim (l₁ ++ l₂) e = countTrim l₁ e + countTrim l₂ e := by
  simp [countTrim, List.count_append]

theorem countTrim_pos_iff (ls : List String) (e : String) :
    0 < countTrim ls e ↔ e ∈ ls.map jsTrim := by
  simp [countTrim, List.count_pos_iff]

theorem countTrim_insertAt (n : Nat) (a : String) (ls : List String) (e : String) :
    countTrim (insertAt n a ls) e =
      countTrim ls e + if jsTrim a = e then 1 else 0 := by
  have h : insertAt n a ls = ls.take n ++ [a] ++ ls.drop n := by
    simp [insertAt]
  rw [h, countTrim_append, countTrim_append]
  have h2 : countTrim ls e = countTrim (ls.take n) e + countTrim (ls.drop n) e := by
    rw [← countTrim_append, List.take_append_drop]
  rw [h2]
  have h3 : countTrim [a] e = if jsTrim a = e then 1 else 0 := by
    by_cases hc : jsTrim a = e
    · simp [countTrim, hc]
    · have hm : e ∉ [jsTrim a] := by
        simp only [List.mem_singleton]
        exact fun h => hc h.symm
      simp only [countTrim, List.map_cons, List.map_nil, if_neg hc]
      exact List.count_eq_zero.mpr hm
  rw [h3]
  omega

theorem insertEntries_countTrim (e : String) :
    ∀ (entries : List String), (∀ x ∈ entries, jsTrim x = x) →
      ∀ (lines : List String) (pos : Nat) (seen : List String),
      countTrim (insertEntries lines pos seen entries) e =
        countTrim lines e + (if e ∈ entries ∧ e ∉ seen then 1 else 0) := by
  intro entries
  induction entries with
  | nil => intro _ lines pos seen; simp [insertEntries]
  | cons x rest ih =>
    intro hE lines pos seen
    have hx : jsTrim x = x := hE x (List.mem_cons_self x rest)
    have hrest : ∀ y ∈ rest, jsTrim y = y := fun y hy => hE y (List.mem_cons_of_mem x hy)
    by_cases hseen : x ∈ seen
    · simp only [insertEntries, if_pos hseen]
      rw [ih hrest lines pos seen]
      congr 1
      by_cases hex : e = x
      · subst hex
        simp [hseen]
      · simp [List.mem_cons, hex]
    · simp only [insertEntries, if_neg hseen]
      rw [ih hrest (insertAt pos x lines) (pos + 1) (x :: seen),
        countTrim_insertAt, hx]
      by_cases hex : e = x
      · subst hex
        simp [hseen, List.mem_cons]
      · have h1 : ¬ (x = e) := fun h => hex h.symm
        simp only [if_neg h1, Nat.add_zero, List.mem_cons]
        have h2 : (e ∈ rest ∧ ¬(e = x ∨ e ∈ seen)) ↔ ((e = x ∨ e ∈ rest) ∧ e ∉ seen) := by
          constructor
          · rintro ⟨h3, h4⟩
            exact ⟨Or.inr h3, fun h5 => h4 (Or.inr h5)⟩
          · rintro ⟨h3, h4⟩
            rcases h3 with h3 | h3
            · exact absurd h3 hex
            · exact ⟨h3, fun h5 => by rcases h5 with h5 | h5; exact hex h5; exact h4 h5⟩

        rw [if_congr h2 rfl rfl]

theorem findHeaderIdx_eq_none_iff (hl : String) (lines : List String) :
    findHeaderIdx hl lines = none ↔ hl ∉ lines.map jsTrim := by
  induction lines with
  | nil => simp [findHeaderIdx]
  | cons l ls ih =>
    by_cases h : jsTrim l = hl
    · simp [findHeaderIdx, h]
    · simp only [findHeaderIdx, if_neg h, List.map_cons, List.mem_cons]
      constructor
      · intro hnone hmem
        rcases hmem with hmem | hmem
        · exact h hmem.symm
        · exact (ih.mp (by
            cases hfi : findHeaderIdx hl ls with
            | none => rfl
            | some i => rw [hfi] at hnone; simp at hnone)) hmem
      · intro hmem
        have : hl ∉ ls.map jsTrim := fun hm => hmem (Or.inr hm)
        rw [ih.mpr this]
        rfl

theorem placeHeader_countTrim_other (hl : String) (lines : List String)
    (e : String) (he1 : e ≠ "") (he2 : e ≠ jsTrim hl) :
    countTrim (placeHeader hl lines).1 e = countTrim lines e := by
  unfold placeHeader
  cases hfi : findHeaderIdx hl lines with
  | some i => rfl
  | none =>
    simp only
    have hsingle : ∀ x : String, jsTrim x ≠ e → countTrim [x] e = 0 := by
      intro x hx
      have hm : e ∉ [jsTrim x] := by
        simp only [List.mem_singleton]
        exact fun h => hx h.symm
      simp only [countTrim, List.map_cons, List.map_nil]
      exact List.count_eq_zero.mpr hm
    cases hlast : lines.getLast? with
    | none =>
      simp only [hlast]
      rw [countTrim_append, hsingle hl (fun h => he2 h.symm)]
      omega
    | some last =>
      simp only [hlast]
      by_cases hb : jsTrim last = ""
      · simp only [if_pos hb]
        rw [countTrim_append, hsingle hl (fun h => he2 h.symm)]
        omega
      · simp only [if_neg hb]
        rw [countTrim_append, countTrim_append,
          hsingle hl (fun h => he2 h.symm),
          hsingle "" (by rw [jsTrim_empty]; exact fun h => he1 h.symm)]
        omega

theorem placeHeader_countTrim_self (hl : String) (lines : List String)
    (hhl : jsTrim hl = hl) (hne : hl ≠ "") :
    countTrim (placeHeader hl lines).1 hl = max (countTrim lines hl) 1 := by
  unfold placeHeader
  cases hfi : findHeaderIdx hl lines with
  | some i =>
    simp only
    have hmem : hl ∈ lines.map jsTrim := by
      by_contra hm
      rw [(findHeaderIdx_eq_none_iff hl lines).mpr hm] at hfi
      exact Option.noConfusion hfi
    have hpos := (countTrim_pos_iff lines hl).mpr hmem
    omega
  | none =>
    simp only
    have hzero : countTrim lines hl = 0 := by
      have hmem := (findHeaderIdx_eq_none_iff hl lines).mp hfi
      by_contra hz
      exact hmem ((countTrim_pos_iff lines hl).mp (by omega))
    have hself : countTrim [hl] hl = 1 := by
      simp [countTrim, hhl]
    have hblank : countTrim [""] hl = 0 := by
      have hm : hl ∉ [jsTrim ""] := by
        simp only [jsTrim_empty, List.mem_singleton]
        exact hne
      simp only [countTrim, List.map_cons, List.map_nil]
      exact List.count_eq_zero.mpr hm
    cases hlast : lines.getLast? with
    | none =>
      simp only [hlast]
      rw [countTrim_append, hzero, hself]
      omega
    | some last =>
      simp only [hlast]
      by_cases hb : jsTrim last = ""
      · simp only [if_pos hb]
        rw [countTrim_append, hzero, hself]
        omega
      · simp only [if_neg hb]
        rw [countTrim_append, countTrim_append, hzero, hblank, hself]
        omega

/-! Round-trip lemmas: re-splitting the written content preserves the
trimmed-line counts of the lines that were joined. -/

theorem splitChar_ne_nil (sep : Char) (l : List Char) : splitChar sep l ≠ [] := by
  cases l with
  | nil => simp [splitChar]
  | cons c rest =>
    by_cases h : c = sep
    · simp [splitChar, h]
    · simp only [splitChar, if_neg h]
      cases hs : splitChar sep rest <;> simp

theorem mapExceptLast_cons_of_ne_nil (f : α → α) (a : α) (l : List α) (h : l ≠ []) :
    mapExceptLast f (a :: l) = f a :: mapExceptLast f l := by
  cases l with
  | nil => exact absurd rfl h
  | cons b rest => rfl

theorem mapExceptLast_ne_nil (f : α → α) (l : List α) (h : l ≠ []) :
    mapExceptLast f l ≠ [] := by
  cases l with
  | nil => exact absurd rfl h
  | cons a rest => cases rest <;> simp [mapExceptLast]

theorem splitChar_append_sep (sep : Char) :
    ∀ (a s : List Char), sep ∉ a →
      splitChar sep (a ++ sep :: s) = a :: splitChar sep s := by
  intro a
  induction a with
  | nil => intro s _; simp [splitChar]
  | cons c a' ih =>
    intro s hmem
    have hc : ¬ (c = sep) := fun h => hmem (h ▸ List.mem_cons_self c a')
    have hm : sep ∉ a' := fun h => hmem (List.mem_cons_of_mem c h)
    simp only [List.cons_append, splitChar, if_neg hc, List.append_eq]
    rw [ih s hm]

theorem splitChar_not_mem (sep : Char) :
    ∀ (l : List Char), ∀ piece ∈ splitChar sep l, sep ∉ piece := by
  intro l
  induction l with
  | nil =>
    intro piece hp
    simp [splitChar] at hp
    simp [hp]
  | cons c rest ih =>
    intro piece hp
    by_cases h : c = sep
    · simp only [splitChar, if_pos h] at hp
      rcases List.mem_cons.mp hp with hp | hp
      · simp [hp]
      · exact ih piece hp
    · simp only [splitChar, if_neg h] at hp
      cases hs : splitChar sep rest with
      | nil => exact absurd hs (splitChar_ne_nil sep rest)
      | cons l0 ls =>
        rw [hs] at hp
        rcases List.mem_cons.mp hp with hp | hp
        · subst hp
          intro hmem
          rcases List.mem_cons.mp hmem with hmem | hmem
          · exact h hmem.symm
          · exact ih l0 (hs ▸ List.mem_cons_self l0 ls) hmem
        · exact ih piece (hs ▸ List.mem_cons_of_mem l0 hp)

theorem splitLinesCh_append (a s : List Char) (h : '\n' ∉ a) :
    splitLinesCh (a ++ '\n' :: s) = stripCRCh a :: splitLinesCh s := by
  unfold splitLinesCh
  rw [splitChar_append_sep '\n' a s h,
    mapExceptLast_cons_of_ne_nil _ _ _ (splitChar_ne_nil '\n' s)]

theorem splitLinesJs_append (a s : String) (h : '\n' ∉ a.data) :
    splitLinesJs (a ++ "\n" ++ s) = stripCRStr a :: splitLinesJs s := by
  unfold splitLinesJs stripCRStr
  have hdata : (a ++ "\n" ++ s).data = a.data ++ '\n' :: s.data := by
    simp [String.data_append]
  rw [hdata, splitLinesCh_append a.data s.data h]
  simp

theorem trimCh_append_ws (l : List Char) (c : Char) (hc : isJsWhitespace c = true) :
    trimCh (l ++ [c]) = trimCh l := by
  unfold trimCh
  rw [List.dropWhile_append]
  by_cases hd : (l.dropWhile isJsWhitespace).isEmpty
  · simp only [if_pos hd]
    have h1 : List.dropWhile isJsWhitespace [c] = [] := by
      simp [List.dropWhile, hc]
    have h2 : l.dropWhile isJsWhitespace = [] := by
      rwa [List.isEmpty_iff] at hd
    rw [h1, h2]
  · simp only [if_neg hd]
    rw [List.reverse_append]
    simp only [List.reverse_cons, List.reverse_nil, List.nil_append,
      List.singleton_append]
    rw [List.dropWhile_cons, if_pos hc]

theorem jsTrim_stripCRStr (a : String) : jsTrim (stripCRStr a) = jsTrim a := by
  unfold jsTrim stripCRStr stripCRCh
  by_cases h : a.data.getLast? = some '\r'
  · simp only [if_pos h]
    obtain ⟨l', hl'⟩ := List.getLast?_eq_some_iff.mp h
    have hdrop : a.data.dropLast = l' := by rw [hl']; exact List.dropLast_concat
    have : trimCh a.data = trimCh l' := by
      rw [hl']
      exact trimCh_append_ws l' '\r' (by decide)
    rw [hdrop, this]
  · simp [if_neg h]

theorem strEndsWith_nl_iff (s : String) :
    strEndsWith s "\n" = true ↔ s.data.getLast? = some '\n' := by
  unfold strEndsWith
  rw [List.isSuffixOf_iff_suffix]
  have hnl : ("\n" : String).data = ['\n'] := rfl
  constructor
  · rintro ⟨t, ht⟩
    rw [← ht, hnl]
    simp
  · intro h
    obtain ⟨l', hl'⟩ := List.getLast?_eq_some_iff.mp h
    refine ⟨l', ?_⟩
    rw [hl']

theorem strEndsWith_nl_append (a t : String) (h : t ≠ "") :
    strEndsWith (a ++ t) "\n" = strEndsWith t "\n" := by
  have hd : t.data ≠ [] := by
    intro hx
    exact h (String.ext (by rw [hx]))
  have h1 := strEndsWith_nl_iff (a ++ t)
  have h2 := strEndsWith_nl_iff t
  have h3 : (a ++ t).data.getLast? = t.data.getLast? := by
    rw [String.data_append]
    exact List.getLast?_append_of_ne_nil a.data hd
  by_cases hb : strEndsWith t "\n" = true
  · rw [hb, h1.mpr (by rw [h3]; exact h2.mp hb)]
  · have hb' : strEndsWith t "\n" = false := Bool.eq_false_iff.mpr hb
    rw [hb']
    refine Bool.eq_false_iff.mpr (fun hx => hb ?_)
    exact h2.mpr (by rw [← h3]; exact h1.mp hx)

theorem strEndsWith_append_nl (x : String) : strEndsWith (x ++ "\n") "\n" = true := by
  apply (strEndsWith_nl_iff _).mpr
  rw [String.data_append]
  have hnl : ("\n" : String).data = ['\n'] := rfl
  rw [hnl]
  simp

theorem strEndsWith_nl_false_of_not_mem (a : String) (h : '\n' ∉ a.data) :
    strEndsWith a "\n" = false := by
  apply Bool.eq_false_iff.mpr
  intro hx
  obtain ⟨l', hl'⟩ := List.getLast?_eq_some_iff.mp ((strEndsWith_nl_iff a).mp hx)
  exact h (by rw [hl']; exact List.mem_append_right l' (List.mem_singleton.mpr rfl))

theorem finalizeNL_append (a t : String) (h : t ≠ "") :
    finalizeNL (a ++ "\n" ++ t) = a ++ "\n" ++ finalizeNL t := by
  unfold finalizeNL
  rw [strEndsWith_nl_append (a ++ "\n") t h]
  by_cases hb : strEndsWith t "\n" = true
  · rw [hb]
    simp
  · have hb' : strEndsWith t "\n" = false := Bool.eq_false_iff.mpr hb
    rw [hb']
    simp only [Bool.false_eq_true, if_false]
    apply String.ext
    simp [String.data_append]

theorem joinWith_nl_eq_empty (b : String) (rest : List String)
    (h : joinWith "\n" (b :: rest) = "") : b = "" ∧ rest = [] := by
  cases rest with
  | nil =>
    simp only [joinWith] at h
    exact ⟨h, rfl⟩
  | cons y r =>
    exfalso
    have := congrArg String.data h
    simp [joinWith, String.data_append] at this

theorem countTrim_singleton (x e : String) :
    countTrim [x] e = if jsTrim x = e then 1 else 0 := by
  by_cases hc : jsTrim x = e
  · simp [countTrim, hc]
  · have hm : e ∉ [jsTrim x] := by
      simp only [List.mem_singleton]
      exact fun h => hc h.symm
    simp only [countTrim, List.map_cons, List.map_nil, if_neg hc]
    exact List.count_eq_zero.mpr hm

theorem countTrim_cons (x : String) (l : List String) (e : String) :
    countTrim (x :: l) e = (if jsTrim x = e then 1 else 0) + countTrim l e := by
  have h : x :: l = [x] ++ l := rfl
  rw [h, countTrim_append, countTrim_singleton]

theorem countTrim_splitLines_finalize_join :
    ∀ (ls : List String), ls ≠ [] → (∀ l ∈ ls, '\n' ∉ l.data) →
      ∀ e : String, e ≠ "" →
      countTrim (splitLinesJs (finalizeNL (joinWith "\n" ls))) e = countTrim ls e := by
  intro ls
  induction ls with
  | nil => intro h; exact absurd rfl h
  | cons a tail ih =>
    intro _ hnl e he
    have hna : '\n' ∉ a.data := hnl a (List.mem_cons_self a tail)
    have hemp : ¬ ("" = e) := fun h => he h.symm
    cases tail with
    | nil =>
      have hj : joinWith "\n" [a] = a := rfl
      rw [hj]
      have hfe : finalizeNL a = a ++ "\n" := by
        unfold finalizeNL
        rw [strEndsWith_nl_false_of_not_mem a hna]
        simp
      have happ : a ++ "\n" = a ++ "\n" ++ "" := by
        apply String.ext
        simp [String.data_append]
      rw [hfe, happ, splitLinesJs_append a "" hna, splitLinesJs_empty]
      simp only [countTrim_cons, jsTrim_stripCRStr, jsTrim_empty]
      rw [if_neg hemp]
      simp [countTrim]
    | cons b rest =>
      have hjoin : joinWith "\n" (a :: b :: rest) =
          a ++ "\n" ++ joinWith "\n" (b :: rest) := rfl
      rw [hjoin]
      by_cases hj : joinWith "\n" (b :: rest) = ""
      · obtain ⟨hb, hr⟩ := joinWith_nl_eq_empty b rest hj
        subst hb; subst hr
        rw [hj]
        have hfix : a ++ "\n" ++ "" = a ++ "\n" := by
          apply String.ext
          simp [String.data_append]
        have hEnds : strEndsWith (a ++ "\n" ++ "") "\n" = true := by
          rw [hfix]
          exact strEndsWith_append_nl a
        have hfe : finalizeNL (a ++ "\n" ++ "") = a ++ "\n" ++ "" := by
          unfold finalizeNL
          rw [hEnds]
          simp
        rw [hfe, splitLinesJs_append a "" hna, splitLinesJs_empty]
        simp only [countTrim_cons, jsTrim_stripCRStr]
      · rw [finalizeNL_append a _ hj, splitLinesJs_append a _ hna]
        simp only [countTrim_cons, jsTrim_stripCRStr]
        rw [ih (by simp) (fun l hl => hnl l (List.mem_cons_of_mem a hl)) e he,
          countTrim_cons]


/-! Membership and shape lemmas for the merged lines. -/

theorem insertAt_mem {x a : α} {l : List α} {n : Nat} (h : x ∈ insertAt n a l) :
    x = a ∨ x ∈ l := by
  unfold insertAt at h
  rcases List.mem_append.mp h with h | h
  · right
    exact List.take_subset n l h
  · rcases List.mem_cons.mp h with h | h
    · left; exact h
    · right
      exact List.drop_subset n l h

theorem insertEntries_mem :
    ∀ (entries lines : List String) (pos : Nat) (seen : List String),
      ∀ x ∈ insertEntries lines pos seen entries, x ∈ lines ∨ x ∈ entries := by
  intro entries
  induction entries with
  | nil =>
    intro lines pos seen x hx
    left
    simpa [insertEntries] using hx
  | cons e rest ih =>
    intro lines pos seen x hx
    by_cases hs : e ∈ seen
    · simp only [insertEntries, if_pos hs] at hx
      rcases ih lines pos seen x hx with h | h
      · left; exact h
      · right; exact List.mem_cons_of_mem e h
    · simp only [insertEntries, if_neg hs] at hx
      rcases ih _ _ _ x hx with h | h
      · rcases insertAt_mem h with h | h
        · right; rw [h]; exact List.mem_cons_self e rest
        · left; exact h
      · right; exact List.mem_cons_of_mem e h

theorem placeHeader_mem (hl : String) (ls : List String) :
    ∀ x ∈ (placeHeader hl ls).1, x ∈ ls ∨ x = "" ∨ x = hl := by
  unfold placeHeader
  cases hfi : findHeaderIdx hl ls with
  | some i =>
    intro x hx
    simp only at hx
    left; exact hx
  | none =>
    intro x hx
    simp only at hx
    cases hlast : ls.getLast? with
    | none =>
      rw [hlast] at hx
      simp only at hx
      rcases List.mem_append.mp hx with h | h
      · left; exact h
      · right; right; simpa using h
    | some last =>
      rw [hlast] at hx
      simp only at hx
      by_cases hb : jsTrim last = ""
      · rw [if_pos hb] at hx
        rcases List.mem_append.mp hx with h | h
        · left; exact h
        · right; right; simpa using h
      · rw [if_neg hb] at hx
        rcases List.mem_append.mp hx with h | h
        · rcases List.mem_append.mp h with h | h
          · left; exact h
          · right; left; simpa using h
        · right; right; simpa using h

theorem placeHeader_ne_nil (hl : String) (ls : List String) (h : ls ≠ []) :
    (placeHeader hl ls).1 ≠ [] := by
  unfold placeHeader
  cases hfi : findHeaderIdx hl ls with
  | some i => simpa using h
  | none => simp

theorem insertAt_length (n : Nat) (a : α) (l : List α) :
    (insertAt n a l).length = l.length + 1 := by
  simp [insertAt]
  omega

theorem insertEntries_length_ge :
    ∀ (entries lines : List String) (pos : Nat) (seen : List String),
      lines.length ≤ (insertEntries lines pos seen entries).length := by
  intro entries
  induction entries with
  | nil => intro lines pos seen; simp [insertEntries]
  | cons e rest ih =>
    intro lines pos seen
    by_cases hs : e ∈ seen
    · simpa [insertEntries, hs] using ih lines pos seen
    · simp only [insertEntries, if_neg hs]
      have h := ih (insertAt pos e lines) (pos + 1) (e :: seen)
      rw [insertAt_length] at h
      omega

theorem mergedLines_ne_nil (hl : String) (L entries : List String) (h : L ≠ []) :
    mergedLines hl L entries ≠ [] := by
  unfold mergedLines
  intro hx
  have h1 := insertEntries_length_ge entries (placeHeader hl L).1
    ((placeHeader hl L).2 + 1) (L.map jsTrim)
  rw [hx] at h1
  simp only [List.length_nil, Nat.le_zero] at h1
  exact placeHeader_ne_nil hl L h (List.length_eq_zero.mp h1)

theorem mapExceptLast_mem (f : α → α) :
    ∀ (l : List α) (x : α), x ∈ mapExceptLast f l → x ∈ l ∨ ∃ y ∈ l, x = f y := by
  intro l
  induction l with
  | nil => intro x hx; simp [mapExceptLast] at hx
  | cons a rest ih =>
    intro x hx
    cases rest with
    | nil =>
      simp only [mapExceptLast, List.mem_singleton] at hx
      left; simp [hx]
    | cons b r =>
      rw [mapExceptLast] at hx
      rcases List.mem_cons.mp hx with hx | hx
      · right
        exact ⟨a, List.mem_cons_self a _, hx⟩
      · rcases ih x hx with h | ⟨y, hy, hxy⟩
        · left; exact List.mem_cons_of_mem a h
        · right; exact ⟨y, List.mem_cons_of_mem a hy, hxy⟩

theorem stripCRCh_subset (l : List Char) : stripCRCh l ⊆ l := by
  unfold stripCRCh
  by_cases h : l.getLast? = some '\r'
  · rw [if_pos h]
    exact List.dropLast_subset l
  · rw [if_neg h]
    exact fun x hx => hx

theorem splitLinesJs_no_nl (s : String) : ∀ l ∈ splitLinesJs s, '\n' ∉ l.data := by
  intro l hl
  unfold splitLinesJs at hl
  rcases List.mem_map.mp hl with ⟨piece, hpiece, hmk⟩
  have hld : l.data = piece := by rw [← hmk]
  rw [hld]
  unfold splitLinesCh at hpiece
  rcases mapExceptLast_mem stripCRCh _ piece hpiece with h | ⟨y, hy, hxy⟩
  · exact splitChar_not_mem '\n' s.data piece h
  · rw [hxy]
    intro hmem
    exact splitChar_not_mem '\n' s.data y hy (stripCRCh_subset y hmem)

theorem splitLinesJs_ne_nil (s : String) : splitLinesJs s ≠ [] := by
  unfold splitLinesJs splitLinesCh
  intro h
  exact mapExceptLast_ne_nil _ _ (splitChar_ne_nil '\n' s.data) (List.map_eq_nil_iff.mp h)

theorem mergedLines_no_nl (hl : String) (L entries : List String)
    (hLnl : ∀ l ∈ L, '\n' ∉ l.data) (hEnl : ∀ x ∈ entries, '\n' ∉ x.data)
    (hhln : '\n' ∉ hl.data) :
    ∀ l ∈ mergedLines hl L entries, '\n' ∉ l.data := by
  intro l hlmem
  unfold mergedLines at hlmem
  rcases insertEntries_mem entries _ _ _ l hlmem with h | h
  · rcases placeHeader_mem hl L l h with h | h | h
    · exact hLnl l h
    · rw [h]; simp
    · rw [h]; exact hhln
  · exact hEnl l h

/-! Count behaviour of a single merger call. -/

theorem mergedLines_countTrim_entry (hl : String) (L entries : List String)
    (hEtrim : ∀ x ∈ entries, jsTrim x = x)
    (e : String) (heE : e ∈ entries) (hee : e ≠ "") (hehl : e ≠ hl)
    (hhl : jsTrim hl = hl) :
    countTrim (mergedLines hl L entries) e = max (countTrim L e) 1 := by
  unfold mergedLines
  rw [insertEntries_countTrim e entries hEtrim _ _ _,
    placeHeader_countTrim_other hl L e hee (by rw [hhl]; exact hehl)]
  by_cases hmem : e ∈ L.map jsTrim
  · have hpos := (countTrim_pos_iff L e).mpr hmem
    rw [if_neg (by simp [hmem])]
    omega
  · have hz : countTrim L e = 0 := by
      by_contra hz
      exact hmem ((countTrim_pos_iff L e).mp (by omega))
    rw [if_pos ⟨heE, hmem⟩, hz]
    omega

theorem mergedLines_countTrim_header (hl : String) (L entries : List String)
    (hEtrim : ∀ x ∈ entries, jsTrim x = x) (hEhl : ∀ x ∈ entries, x ≠ hl)
    (hhl : jsTrim hl = hl) (hhlne : hl ≠ "") :
    countTrim (mergedLines hl L entries) hl = max (countTrim L hl) 1 := by
  unfold mergedLines
  rw [insertEntries_countTrim hl entries hEtrim _ _ _,
    placeHeader_countTrim_self hl L hhl hhlne,
    if_neg (by rintro ⟨hmem, -⟩; exact hEhl hl hmem rfl)]
  omega

theorem updateGitignore_call_counts (content : Option String) (args : GitignoreArgs)
    (hne : entriesOf args ≠ [])
    (hE : ∀ x ∈ entriesOf args,
      jsTrim x = x ∧ '\n' ∉ x.data ∧ x ≠ headerLineOf args.sectionHeader)
    (hhl : jsTrim (headerLineOf args.sectionHeader) = headerLineOf args.sectionHeader)
    (hhln : '\n' ∉ (headerLineOf args.sectionHeader).data) :
    ∃ r, updateGitignore content args = some r ∧
      (∀ e ∈ entriesOf args,
        lineCountTrim r e = max (lineCountTrim (content.getD "") e) 1) ∧
      lineCountTrim r (headerLineOf args.sectionHeader) =
        max (lineCountTrim (content.getD "") (headerLineOf args.sectionHeader)) 1 := by
  have hupd : updateGitignore content args =
      some (finalizeNL (joinWith "\n" (mergedLines (headerLineOf args.sectionHeader)
        (splitLinesJs (content.getD "")) (entriesOf args)))) := by
    simp only [updateGitignore]
    rw [if_neg hne]
  have hMnil : mergedLines (headerLineOf args.sectionHeader)
      (splitLinesJs (content.getD "")) (entriesOf args) ≠ [] :=
    mergedLines_ne_nil _ _ _ (splitLinesJs_ne_nil _)
  have hMnl : ∀ l ∈ mergedLines (headerLineOf args.sectionHeader)
      (splitLinesJs (content.getD "")) (entriesOf args), '\n' ∉ l.data :=
    mergedLines_no_nl _ _ _ (splitLinesJs_no_nl _) (fun x hx => (hE x hx).2.1) hhln
  refine ⟨_, hupd, ?_, ?_⟩
  · intro e heE
    obtain ⟨het, hen, hehl⟩ := hE e heE
    have hee : e ≠ "" := entriesOf_ne_empty args e heE
    show countTrim (splitLinesJs (finalizeNL (joinWith "\n" _))) e = _
    rw [countTrim_splitLines_finalize_join _ hMnil hMnl e hee,
      mergedLines_countTrim_entry _ _ _ (fun x hx => (hE x hx).1) e heE hee hehl hhl]
    rfl
  · have hhlne : headerLineOf args.sectionHeader ≠ "" := headerLineOf_ne_empty _
    show countTrim (splitLinesJs (finalizeNL (joinWith "\n" _)))
      (headerLineOf args.sectionHeader) = _
    rw [countTrim_splitLines_finalize_join _ hMnil hMnl _ hhlne,
      mergedLines_countTrim_header _ _ _ (fun x hx => (hE x hx).1)
        (fun x hx => (hE x hx).2.2) hhl hhlne]
    rfl

/-- Claim C5 (amended): calling the gitignore merger twice with the same
non-empty entry set behaves as an idempotent union, provided each entry
and the header line are single-line strings equal to their trimmed form
and no entry equals the header line: after the two calls, the number of
lines whose trimmed form equals an entry is `max(1, its count in the
original file)` — exactly once when the original file did not already
contain duplicates of it — and likewise for the header line; an entry
already present anywhere in the file (exact full-line match after
trimming) is never inserted again. -/
theorem updateGitignore_twice_union (content : Option String) (args : GitignoreArgs)
    (hne : entriesOf args ≠ [])
    (hE : ∀ x ∈ entriesOf args,
      jsTrim x = x ∧ '\n' ∉ x.data ∧ x ≠ headerLineOf args.sectionHeader)
    (hhl : jsTrim (headerLineOf args.sectionHeader) = headerLineOf args.sectionHeader)
    (hhln : '\n' ∉ (headerLineOf args.sectionHeader).data) :
    ∃ r1 r2, updateGitignore content args = some r1 ∧
      updateGitignore (some r1) args = some r2 ∧
      (∀ e ∈ entriesOf args,
        lineCountTrim r1 e = max (lineCountTrim (content.getD "") e) 1 ∧
        lineCountTrim r2 e = max (lineCountTrim (content.getD "") e) 1) ∧
      lineCountTrim r2 (headerLineOf args.sectionHeader) =
        max (lineCountTrim (content.getD "") (headerLineOf args.sectionHeader)) 1 := by
  obtain ⟨r1, h1, h1e, h1h⟩ := updateGitignore_call_counts content args hne hE hhl hhln
  obtain ⟨r2, h2, h2e, h2h⟩ := updateGitignore_call_counts (some r1) args hne hE hhl hhln
  refine ⟨r1, r2, h1, h2, ?_, ?_⟩
  · intro e heE
    refine ⟨h1e e heE, ?_⟩
    have h2e' := h2e e heE
    simp only [Option.getD_some] at h2e'
    rw [h2e', h1e e heE]
    omega
  · simp only [Option.getD_some] at h2h
    rw [h2h, h1h]
    omega

/-- Witness for the amended C5: one clean entry, missing file. -/
theorem updateGitignore_twice_union_witness :
    ∃ r1 r2,
      updateGitignore none ⟨some "docs/", [], none, "Docpup generated docs"⟩ = some r1 ∧
      updateGitignore (some r1) ⟨some "docs/", [], none, "Docpup generated docs"⟩ = some r2 ∧
      (∀ e ∈ entriesOf ⟨some "docs/", [], none, "Docpup generated docs"⟩,
        lineCountTrim r1 e = max (lineCountTrim ((none : Option String).getD "") e) 1 ∧
        lineCountTrim r2 e = max (lineCountTrim ((none : Option String).getD "") e) 1) ∧
      lineCountTrim r2
          (headerLineOf (GitignoreArgs.mk (some "docs/") [] none
            "Docpup generated docs").sectionHeader) =
        max (lineCountTrim ((none : Option String).getD "")
          (headerLineOf (GitignoreArgs.mk (some "docs/") [] none
            "Docpup generated docs").sectionHeader)) 1 :=
  updateGitignore_twice_union none ⟨some "docs/", [], none, "Docpup generated docs"⟩
    (by decide) (by decide) (by decide) (by decide)


/-! ### Claim C2 -/

/-- Counterexample to claim C2 as stated: the href `"x.html "` (with a
trailing space) is non-empty, no pure fragment, not protocol-relative
and has no scheme, and its path component `"x.html "` does not end with
`.html` or `.htm` (even case-insensitively), so the claim requires it to
be left untouched — but `rewriteHref` trims the href first and rewrites
it to `"x.md"`. -/
theorem rewriteHref_trim_counterexample :
    ("x.html " ≠ "" ∧ strStartsWith "x.html " "#" = false ∧
      strStartsWith "x.html " "//" = false ∧ hasScheme "x.html " = false) ∧
    (hrefParts "x.html ").1 = "x.html " ∧
    strEndsWith (lowerStr "x.html ") ".html" = false ∧
    strEndsWith (lowerStr "x.html ") ".htm" = false ∧
    rewriteHrefSpec "x.html " = none ∧
    rewriteHref "x.html " = some "x.md" := by decide

theorem splitAtFirstCh_eq (c : Char) :
    ∀ l : List Char, splitAtFirstCh c l =
      (match idxOfCh c l with
        | some i => (l.take i, l.drop i)
        | none => (l, [])) := by
  intro l
  induction l with
  | nil => rfl
  | cons x xs ih =>
    by_cases h : x = c
    · simp [splitAtFirstCh, idxOfCh, h]
    · simp only [splitAtFirstCh, if_neg h, idxOfCh, ih]
      cases hi : idxOfCh c xs <;> simp

theorem splitAtFirst_eq (c : Char) (s : String) :
    splitAtFirst c s =
      (match idxOfCh c s.data with
        | some i => (strTake s i, strDrop s i)
        | none => (s, "")) := by
  unfold splitAtFirst strTake strDrop
  rw [splitAtFirstCh_eq c s.data]
  cases hi : idxOfCh c s.data <;> rfl

/-- Claim C2 (amended): `rewriteHref` first trims the href of leading and
trailing whitespace; on the trimmed href the claim's description is
exact: untouched iff empty, a pure fragment, protocol-relative, scheme-
carrying, or with a path component not ending in `.html`/`.htm`
(case-insensitively); otherwise the suffix becomes `.md` with the query
string and fragment of the trimmed href reappended unchanged. -/
theorem rewriteHref_eq_spec_of_trim (href : String) :
    rewriteHref href = rewriteHrefSpec (jsTrim href) := by
  unfold rewriteHref rewriteHrefSpec hrefParts
  by_cases h1 : jsTrim href = ""
  · simp [h1]
  · simp only [if_neg h1]
    cases h2 : strStartsWith (jsTrim href) "#" with
    | true => simp
    | false =>
      simp only [Bool.false_eq_true, if_false]
      cases h3 : strStartsWith (jsTrim href) "//" with
      | true => simp
      | false =>
        simp only [Bool.false_eq_true, if_false]
        cases h4 : hasScheme (jsTrim href) with
        | true => simp
        | false =>
          simp only [Bool.false_eq_true, if_false]
          rw [splitAtFirst_eq '#' (jsTrim href)]
          cases hh : idxOfCh '#' (jsTrim href).data with
          | none =>
            simp only
            rw [splitAtFirst_eq '?' (jsTrim href)]
            cases hq : idxOfCh '?' (jsTrim href).data with
            | none =>
              simp only
              by_cases hp : jsTrim href = ""
              · exact absurd hp h1
              · rw [if_neg hp]
                by_cases h5 : strEndsWith (lowerStr (jsTrim href)) ".html" = true
                · simp only [h5, if_true]
                  unfold replaceSuffixMd
                  rfl
                · simp only [h5, if_false]
                  by_cases h6 : strEndsWith (lowerStr (jsTrim href)) ".htm" = true
                  · simp only [h6, if_true]
                    unfold replaceSuffixMd
                    rfl
                  · simp only [h6, if_false]
                    rfl
            | some j =>
              simp only
              by_cases hp : strTake (jsTrim href) j = ""
              · rw [if_pos hp, hp]
                have hlow : lowerStr "" = "" := rfl
                rw [hlow]
                have he1 : strEndsWith "" ".html" = false := by decide
                have he2 : strEndsWith "" ".htm" = false := by decide
                rw [he1, he2]
                simp
              · rw [if_neg hp]
                by_cases h5 : strEndsWith (lowerStr (strTake (jsTrim href) j)) ".html" = true
                · simp only [h5, if_true]
                  unfold replaceSuffixMd
                  rfl
                · simp only [h5, if_false]
                  by_cases h6 : strEndsWith (lowerStr (strTake (jsTrim href) j)) ".htm" = true
                  · simp only [h6, if_true]
                    unfold replaceSuffixMd
                    rfl
                  · simp only [h6, if_false]
                    rfl
          | some i =>
            simp only
            rw [splitAtFirst_eq '?' (strTake (jsTrim href) i)]
            cases hq : idxOfCh '?' (strTake (jsTrim href) i).data with
            | none =>
              simp only
              by_cases hp : strTake (jsTrim href) i = ""
              · rw [if_pos hp, hp]
                have he1 : strEndsWith (lowerStr "") ".html" = false := by decide
                have he2 : strEndsWith (lowerStr "") ".htm" = false := by decide
                rw [he1, he2]
                simp
              · rw [if_neg hp]
                by_cases h5 : strEndsWith (lowerStr (strTake (jsTrim href) i)) ".html" = true
                · simp only [h5, if_true]
                  unfold replaceSuffixMd
                  rfl
                · simp only [h5, if_false]
                  by_cases h6 : strEndsWith (lowerStr (strTake (jsTrim href) i)) ".htm" = true
                  · simp only [h6, if_true]
                    unfold replaceSuffixMd
                    rfl
                  · simp only [h6, if_false]
                    rfl
            | some j =>
              simp only
              by_cases hp : strTake (strTake (jsTrim href) i) j = ""
              · rw [if_pos hp, hp]
                have he1 : strEndsWith (lowerStr "") ".html" = false := by decide
                have he2 : strEndsWith (lowerStr "") ".htm" = false := by decide
                rw [he1, he2]
                simp
              · rw [if_neg hp]
                by_cases h5 : strEndsWith (lowerStr (strTake (strTake (jsTrim href) i) j))
                    ".html" = true
                · simp only [h5, if_true]
                  unfold replaceSuffixMd
                  rfl
                · simp only [h5, if_false]
                  by_cases h6 : strEndsWith (lowerStr (strTake (strTake (jsTrim href) i) j))
                      ".htm" = true
                  · simp only [h6, if_true]
                    unfold replaceSuffixMd
                    rfl
                  · simp only [h6, if_false]
                    rfl


/-! ### Claim C4 -/

theorem strStartsWith_append (p r : String) : strStartsWith (p ++ r) p = true := by
  unfold strStartsWith
  rw [String.data_append]
  exact List.isPrefixOf_iff_prefix.mpr (List.prefix_append _ _)

theorem strStartsWith_self (p : String) : strStartsWith p p = true := by
  unfold strStartsWith
  exact List.isPrefixOf_iff_prefix.mpr (List.prefix_refl _)

theorem commonPrefixLen_le : ∀ (a b : List String), commonPrefixLen a b ≤ a.length := by
  intro a
  induction a with
  | nil => intro b; simp [commonPrefixLen]
  | cons x as ih =>
    intro b
    cases b with
    | nil => simp [commonPrefixLen]
    | cons y bs =>
      by_cases h : x = y
      · simp only [commonPrefixLen, if_pos h, List.length_cons]
        exact Nat.add_le_add_right (ih bs) 1
      · simp [commonPrefixLen, h]

theorem commonPrefixLen_eq_length_iff :
    ∀ (a b : List String), commonPrefixLen a b = a.length ↔ a <+: b := by
  intro a
  induction a with
  | nil => intro b; simp [commonPrefixLen]
  | cons x as ih =>
    intro b
    cases b with
    | nil =>
      have h0 : commonPrefixLen (x :: as) [] = 0 := rfl
      rw [h0]
      simp only [List.length_cons]
      constructor
      · intro h; omega
      · intro h
        exact absurd (List.prefix_nil.mp h) (by simp)
    | cons y bs =>
      have hcons : commonPrefixLen (x :: as) (y :: bs) =
          if x = y then commonPrefixLen as bs + 1 else 0 := rfl
      rw [hcons]
      by_cases h : x = y
      · simp only [if_pos h, List.length_cons,
          Nat.add_right_cancel_iff, ih bs, List.cons_prefix_cons]
        constructor
        · intro hp; exact ⟨h, hp⟩
        · intro hp; exact hp.2
      · simp only [if_neg h, List.cons_prefix_cons, List.length_cons]
        constructor
        · intro hz; omega
        · rintro ⟨hxy, -⟩; exact absurd hxy h

/-- Claim C4: for every root and requested path, if the resolved path
escapes the root (the root's segments are not a prefix of it) then
`resolveInside` raises an error; and whenever `resolveInside` succeeds
it returns exactly the resolved path — never a clamped or substituted
one.  The same function guards `workDir`/`outputDir` in both
preprocessors and the per-repository output directory and index file
path in the orchestrator. -/
theorem resolveInside_escape_error (root : List String) (input : String) :
    (¬ root <+: resolvePath root input →
      ∃ m, resolveInside root input = Except.error m) ∧
    (∀ p, resolveInside root input = Except.ok p → p = resolvePath root input) := by
  constructor
  · intro hesc
    have hle := commonPrefixLen_le root (resolvePath root input)
    have hne : commonPrefixLen root (resolvePath root input) ≠ root.length :=
      fun h => hesc ((commonPrefixLen_eq_length_iff root (resolvePath root input)).mp h)
    obtain ⟨m, hm⟩ : ∃ m, root.length - commonPrefixLen root (resolvePath root input) =
        m + 1 := ⟨root.length - commonPrefixLen root (resolvePath root input) - 1, by omega⟩
    have hrel : relativeSegs root (resolvePath root input) =
        ".." :: (List.replicate m ".." ++
          (resolvePath root input).drop (commonPrefixLen root (resolvePath root input))) := by
      unfold relativeSegs
      rw [hm, List.replicate_succ, List.cons_append]
    have hstart : strStartsWith (joinWith "/" (relativeSegs root (resolvePath root input)))
        ".." = true := by
      rw [hrel]
      cases hr : List.replicate m ".." ++
          (resolvePath root input).drop (commonPrefixLen root (resolvePath root input)) with
      | nil => exact strStartsWith_self ".."
      | cons z zs =>
        show strStartsWith (".." ++ "/" ++ joinWith "/" (z :: zs)) ".." = true
        rw [str_append_assoc]
        exact strStartsWith_append ".." ("/" ++ joinWith "/" (z :: zs))
    refine ⟨"Resolved path escapes root: " ++ joinWith "/" (resolvePath root input), ?_⟩
    simp only [resolveInside]
    rw [hstart]
    simp
  · intro p hp
    simp only [resolveInside] at hp
    by_cases hc : (strStartsWith (joinWith "/" (relativeSegs root (resolvePath root input)))
        ".." || strStartsWith (joinWith "/" (relativeSegs root (resolvePath root input)))
        "/") = true
    · rw [if_pos hc] at hp
      exact absurd hp (by simp)
    · rw [if_neg hc] at hp
      exact (Except.ok.injEq _ _).mp hp |>.symm

/-- Witness for C4: `"../x"` escapes the root `["root"]` and is rejected;
`"docs"` stays inside and is returned exactly as resolved. -/
theorem resolveInside_escape_error_witness :
    (¬ ["root"] <+: resolvePath ["root"] "../x" ∧
      ∃ m, resolveInside ["root"] "../x" = Except.error m) ∧
    (resolveInside ["root"] "docs" = Except.ok ["root", "docs"] ∧
      ["root", "docs"] = resolvePath ["root"] "docs") :=
  ⟨⟨by decide, (resolveInside_escape_error ["root"] "../x").1 (by decide)⟩,
    ⟨by rfl, (resolveInside_escape_error ["root"] "docs").2 ["root", "docs"] (by rfl)⟩⟩


/-! ### Claim C8 -/

/-- Claim C8: a repository configuration carrying a preprocess directive
is only valid with exactly one source path: when its `sourcePaths` list
has more than one entry, or it has neither `sourcePath` nor a non-empty
`sourcePaths`, the configuration schema rejects it and the preprocessor's
source-path resolution (`getSingleSourcePath`) raises an error rather
than returning a path. -/
theorem preprocess_single_source_path_required (r : RepoCfg)
    (hpre : r.preprocess.isSome = true)
    (hbad : (∃ l, r.sourcePaths = some l ∧ l.length > 1) ∨
      (r.sourcePath = none ∧ (r.sourcePaths = none ∨ r.sourcePaths = some []))) :
    repoSchemaAccepts r = false ∧ ∃ m, getSingleSourcePath r = Except.error m := by
  rcases hbad with ⟨l, hl, hlen⟩ | ⟨hsp, hsps⟩
  · constructor
    · simp [repoSchemaAccepts, hl, hpre, hlen]
    · cases l with
      | nil => simp at hlen
      | cons p rest =>
        refine ⟨"Repo " ++ r.name ++ ": preprocess requires a single sourcePath", ?_⟩
        unfold getSingleSourcePath
        rw [hl]
        simp only [if_pos hlen]
  · rcases hsps with h | h
    · refine ⟨by simp [repoSchemaAccepts, hsp, h],
        "Repo " ++ r.name ++ ": either sourcePath or sourcePaths required", ?_⟩
      simp [getSingleSourcePath, hsp, h]
    · refine ⟨by simp [repoSchemaAccepts, h],
        "Repo " ++ r.name ++ ": either sourcePath or sourcePaths required", ?_⟩
      simp [getSingleSourcePath, hsp, h]

/-- Witness for C8: two source paths combined with an html preprocess
directive are rejected by both layers. -/
theorem preprocess_single_source_path_required_witness :
    ((⟨"r", "u", none, some ["a", "b"],
        some (PreprocessDirective.html none none none none)⟩ : RepoCfg).preprocess.isSome =
      true) ∧
    (repoSchemaAccepts ⟨"r", "u", none, some ["a", "b"],
        some (PreprocessDirective.html none none none none)⟩ = false ∧
      ∃ m, getSingleSourcePath ⟨"r", "u", none, some ["a", "b"],
        some (PreprocessDirective.html none none none none)⟩ = Except.error m) :=
  ⟨by decide, preprocess_single_source_path_required _ (by decide)
    (Or.inl ⟨["a", "b"], rfl, by decide⟩)⟩

/-! ### Claim C10 -/

theorem jsSetDedup_go_eq :
    ∀ (l seen : List String),
      jsSetDedup.go seen l = dedupKeepFirst (l.filter (fun y => y ∉ seen)) := by
  intro l
  induction l with
  | nil => intro seen; simp [jsSetDedup.go, dedupKeepFirst]
  | cons x xs ih =>
    intro seen
    by_cases hx : x ∈ seen
    · have h1 : jsSetDedup.go seen (x :: xs) = jsSetDedup.go seen xs := by
        simp [jsSetDedup.go, hx]
      have h2 : (x :: xs).filter (fun y => y ∉ seen) = xs.filter (fun y => y ∉ seen) := by
        simp [List.filter_cons, hx]
      rw [h1, h2, ih seen]
    · have h1 : jsSetDedup.go seen (x :: xs) = x :: jsSetDedup.go (x :: seen) xs := by
        simp [jsSetDedup.go, hx]
      have h2 : (x :: xs).filter (fun y => y ∉ seen) =
          x :: xs.filter (fun y => y ∉ seen) := by
        simp [List.filter_cons, hx]
      rw [h1, h2, ih (x :: seen), dedupKeepFirst]
      congr 1
      rw [List.filter_filter]
      apply congrArg dedupKeepFirst
      apply List.filter_congr
      intro y _
      by_cases hy1 : y = x <;> by_cases hy2 : y ∈ seen <;> simp [hy1, hy2]

theorem jsSetDedup_eq_dedupKeepFirst (l : List String) :
    jsSetDedup l = dedupKeepFirst l := by
  unfold jsSetDedup
  rw [jsSetDedup_go_eq l []]
  congr 1
  apply List.filter_eq_self.mpr
  intro a _
  simp

/-- Claim C10: `mergeScanConfig` returns the base when no override is
given; with an override, `excludeDirs` is the keep-first deduplicated
concatenation of the base's entries followed by the override's when the
override supplies them and exactly the base's entries otherwise, and
every other field present in the override replaces the base's value
while absent fields keep the base's value. -/
theorem mergeScanConfig_spec (base : ScanCfg) (o : ScanOverride) :
    mergeScanConfig base none = base ∧
    (∀ e, o.excludeDirs = some e →
      (mergeScanConfig base (some o)).excludeDirs =
        dedupKeepFirst (base.excludeDirs ++ e)) ∧
    (o.excludeDirs = none →
      (mergeScanConfig base (some o)).excludeDirs = base.excludeDirs) ∧
    (mergeScanConfig base (some o)).includeMd = o.includeMd.getD base.includeMd ∧
    (mergeScanConfig base (some o)).includeMdx = o.includeMdx.getD base.includeMdx ∧
    (∀ b, o.includeHiddenDirs = some b →
      (mergeScanConfig base (some o)).includeHiddenDirs = some b) ∧
    (o.includeHiddenDirs = none →
      (mergeScanConfig base (some o)).includeHiddenDirs = base.includeHiddenDirs) ∧
    (∀ e, o.extensions = some e → (mergeScanConfig base (some o)).extensions = some e) ∧
    (o.extensions = none → (mergeScanConfig base (some o)).extensions = base.extensions) := by
  refine ⟨rfl, ?_, ?_, rfl, rfl, ?_, ?_, ?_, ?_⟩
  · intro e he
    simp [mergeScanConfig, he, jsSetDedup_eq_dedupKeepFirst]
  · intro he
    simp [mergeScanConfig, he]
  · intro b hb
    simp [mergeScanConfig, hb]
  · intro hb
    simp [mergeScanConfig, hb]
  · intro e he
    simp [mergeScanConfig, he]
  · intro he
    simp [mergeScanConfig, he]

/-- Witness for C10: the override of the repository test configuration
merges `excludeDirs` keep-first and replaces `includeHiddenDirs`. -/
theorem mergeScanConfig_spec_witness :
    (mergeScanConfig ⟨true, true, some false, ["node_modules", "images"], none⟩
        (some ⟨none, none, some true, some ["images", "_build"], none⟩)).excludeDirs =
      dedupKeepFirst (["node_modules", "images"] ++ ["images", "_build"]) ∧
    (mergeScanConfig ⟨true, true, some false, ["node_modules", "images"], none⟩
        (some ⟨none, none, some true, some ["images", "_build"], none⟩)).includeHiddenDirs =
      some true :=
  ⟨(mergeScanConfig_spec ⟨true, true, some false, ["node_modules", "images"], none⟩
      ⟨none, none, some true, some ["images", "_build"], none⟩).2.1
      ["images", "_build"] rfl,
    (mergeScanConfig_spec ⟨true, true, some false, ["node_modules", "images"], none⟩
      ⟨none, none, some true, some ["images", "_build"], none⟩).2.2.2.2.2.1 true rfl⟩

/-! ### Claim C3 -/

theorem foldl_count_inc :
    ∀ (l : List (List String)) (n : Nat), l.foldl (fun w _ => w + 1) n = n + l.length := by
  intro l
  induction l with
  | nil => intro n; simp
  | cons x xs ih =>
    intro n
    rw [List.foldl_cons, ih (n + 1), List.length_cons]
    omega

/-- Claim C3: the HTML preprocessor fails with the "produced no markdown
files" error exactly when zero `.html`/`.htm` files were collected under
the work directory or zero output files were written (each collected
file produces one write, so the two vanish together); when at least one
Markdown file is written it returns the output directory. -/
theorem runHtmlPreprocess_no_markdown_iff (repoName : String) (workTree : List FsNode)
    (skip : Option (List String)) (outputDir : String) :
    (runHtmlPreprocessCore repoName workTree skip outputDir =
        Except.error (noMarkdownMsg repoName) ↔
      (collectHtmlFiles skip workTree = [] ∨
        (collectHtmlFiles skip workTree).foldl (fun w _ => w + 1) 0 = 0)) ∧
    (collectHtmlFiles skip workTree ≠ [] →
      runHtmlPreprocessCore repoName workTree skip outputDir = Except.ok outputDir) := by
  unfold runHtmlPreprocessCore
  by_cases hnil : collectHtmlFiles skip workTree = []
  · rw [hnil]
    simp
  · have hlen : ¬ ((collectHtmlFiles skip workTree).length = 0) := by
      intro h
      exact hnil (List.length_eq_zero.mp h)
    rw [if_neg hlen, foldl_count_inc _ 0]
    rw [if_neg (by omega)]
    constructor
    · constructor
      · intro h
        exact absurd h (by simp)
      · rintro (h | h)
        · exact absurd h hnil
        · omega
    · intro _
      rfl

/-- Witness for C3: a work tree with files in plain, hidden and skipped
directories collects two HTML files and succeeds; an empty work tree
fails with the "produced no markdown files" error. -/
theorem runHtmlPreprocess_no_markdown_iff_witness :
    collectHtmlFiles (some ["docpup-build"])
      [FsNode.file "index.html", FsNode.file "readme.md",
        FsNode.dir ".git" [FsNode.file "x.html"],
        FsNode.dir "docpup-build" [FsNode.file "out.html"],
        FsNode.dir "sub" [FsNode.file "y.HTM"]] =
      [["index.html"], ["sub", "y.HTM"]] ∧
    runHtmlPreprocessCore "sample" [FsNode.file "index.html", FsNode.file "readme.md",
        FsNode.dir ".git" [FsNode.file "x.html"],
        FsNode.dir "docpup-build" [FsNode.file "out.html"],
        FsNode.dir "sub" [FsNode.file "y.HTM"]]
      (some ["docpup-build"]) "docpup-build" = Except.ok "docpup-build" ∧
    (runHtmlPreprocessCore "sample" [] (some ["docpup-build"]) "docpup-build" =
        Except.error (noMarkdownMsg "sample") ↔
      (collectHtmlFiles (some ["docpup-build"]) ([] : List FsNode) = [] ∨
        (collectHtmlFiles (some ["docpup-build"]) ([] : List FsNode)).foldl
          (fun w _ => w + 1) 0 = 0)) :=
  ⟨by decide,
    (runHtmlPreprocess_no_markdown_iff "sample" _ (some ["docpup-build"])
      "docpup-build").2 (by decide),
    (runHtmlPreprocess_no_markdown_iff "sample" [] (some ["docpup-build"])
      "docpup-build").1⟩

/-! ### Claim C1 -/

theorem processRepo_foldl (rs : List RepoRun) :
    ∀ (s f : Nat) (l : List RepoFailure),
      (rs.foldl processRepo (s, f, l)).1 + (rs.foldl processRepo (s, f, l)).2.1 =
          s + f + rs.length ∧
      (rs.foldl processRepo (s, f, l)).2.1 = f + (rs.filterMap failureOf).length ∧
      (rs.foldl processRepo (s, f, l)).2.2 = l ++ rs.filterMap failureOf := by
  induction rs with
  | nil => intro s f l; simp
  | cons r rest ih =>
    intro s f l
    cases houtcome : r.outcome with
    | checkoutFailed e =>
      have hstep : processRepo (s, f, l) r = (s, f + 1, l ++ [⟨r.name, e⟩]) := by
        simp [processRepo, houtcome]
      have hfail : failureOf r = some ⟨r.name, e⟩ := by
        simp [failureOf, houtcome]
      obtain ⟨ih1, ih2, ih3⟩ := ih s (f + 1) (l ++ [⟨r.name, e⟩])
      rw [List.foldl_cons, hstep, List.filterMap_cons, hfail]
      refine ⟨by rw [ih1]; simp; omega, by rw [ih2]; simp; omega, by rw [ih3]; simp⟩
    | stepFailed e =>
      have hstep : processRepo (s, f, l) r = (s, f + 1, l ++ [⟨r.name, e⟩]) := by
        simp [processRepo, houtcome]
      have hfail : failureOf r = some ⟨r.name, e⟩ := by
        simp [failureOf, houtcome]
      obtain ⟨ih1, ih2, ih3⟩ := ih s (f + 1) (l ++ [⟨r.name, e⟩])
      rw [List.foldl_cons, hstep, List.filterMap_cons, hfail]
      refine ⟨by rw [ih1]; simp; omega, by rw [ih2]; simp; omega, by rw [ih3]; simp⟩
    | ok =>
      have hstep : processRepo (s, f, l) r = (s + 1, f, l) := by
        simp [processRepo, houtcome]
      have hfail : failureOf r = none := by
        simp [failureOf, houtcome]
      obtain ⟨ih1, ih2, ih3⟩ := ih (s + 1) f l
      rw [List.foldl_cons, hstep, List.filterMap_cons, hfail]
      refine ⟨by rw [ih1]; simp; omega, ih2, ih3⟩

/-- Claim C1: for every run over repositories whose filtered list is
non-empty, `generateDocs` returns normally with a summary whose `total`
is the number of processed repositories, with `succeeded + failed =
total`, whose failure list records exactly the repositories whose
checkout or pipeline step failed — each with its name and reason — so a
single repository's failure never aborts the others; and the function
raises only when the filtered repository set is empty (a top-level
configuration problem aborts before the model begins). -/
theorem generateDocs_summary_isolated (repos : List RepoRun) (only : Option String) :
    (filteredRepos repos only ≠ [] →
      ∃ s, generateDocs repos only = Except.ok s ∧
        s.total = (filteredRepos repos only).length ∧
        s.succeeded + s.failed = s.total ∧
        s.failed = s.failures.length ∧
        s.failures = (filteredRepos repos only).filterMap failureOf) ∧
    (∀ m, generateDocs repos only = Except.error m → filteredRepos repos only = []) := by
  constructor
  · intro hne
    obtain ⟨h1, h2, h3⟩ := processRepo_foldl (filteredRepos repos only) 0 0 []
    refine ⟨⟨(filteredRepos repos only).length,
        ((filteredRepos repos only).foldl processRepo (0, 0, [])).1,
        ((filteredRepos repos only).foldl processRepo (0, 0, [])).2.1,
        ((filteredRepos repos only).foldl processRepo (0, 0, [])).2.2⟩, ?_, rfl, ?_, ?_, ?_⟩
    · simp only [generateDocs]
      rw [if_neg hne]
    · simpa using h1
    · rw [h2, h3]
      simp
    · simpa using h3
  · intro m hm
    by_cases h : filteredRepos repos only = []
    · exact h
    · exfalso
      have : generateDocs repos only =
          Except.ok ⟨(filteredRepos repos only).length,
            ((filteredRepos repos only).foldl processRepo (0, 0, [])).1,
            ((filteredRepos repos only).foldl processRepo (0, 0, [])).2.1,
            ((filteredRepos repos only).foldl processRepo (0, 0, [])).2.2⟩ := by
        simp only [generateDocs]
        rw [if_neg h]
      rw [this] at hm
      exact absurd hm (by simp)

/-- Witness for C1: three repositories with one injected checkout
failure yield `succeeded = 2`, `failed = 1`, and the failure record
names the failing repository. -/
theorem generateDocs_summary_isolated_witness :
    ∃ s, generateDocs [⟨"a", RepoOutcome.ok⟩,
        ⟨"b", RepoOutcome.checkoutFailed "remote unreachable"⟩,
        ⟨"c", RepoOutcome.ok⟩] none = Except.ok s ∧
      s.total = (filteredRepos [⟨"a", RepoOutcome.ok⟩,
        ⟨"b", RepoOutcome.checkoutFailed "remote unreachable"⟩,
        ⟨"c", RepoOutcome.ok⟩] none).length ∧
      s.succeeded + s.failed = s.total ∧
      s.failed = s.failures.length ∧
      s.failures = (filteredRepos [⟨"a", RepoOutcome.ok⟩,
        ⟨"b", RepoOutcome.checkoutFailed "remote unreachable"⟩,
        ⟨"c", RepoOutcome.ok⟩] none).filterMap failureOf :=
  (generateDocs_summary_isolated [⟨"a", RepoOutcome.ok⟩,
    ⟨"b", RepoOutcome.checkoutFailed "remote unreachable"⟩,
    ⟨"c", RepoOutcome.ok⟩] none).1 (by decide)

/-! ### Claim C7 -/

/-- Counterexample to claim C7 as stated: with one configured repository
and `addDocsDir` contributing the entry `"documentation/"`, the
gitignore merger invocation is the very first event of the run — it is
issued before the repository's task is scheduled, not only after all
per-repository processing attempts have been scheduled (what is deferred
until after the tasks is awaiting its promise). -/
theorem gitignore_invoke_before_scheduling_counterexample :
    generateTrace ["axum"] (some "documentation/") [] none =
      [OrchEvent.gitignoreInvoke, OrchEvent.taskScheduled "axum",
        OrchEvent.awaitTasks, OrchEvent.awaitGitignore] ∧
    (generateTrace ["axum"] (some "documentation/") [] none).findIdx?
        (fun e => e = OrchEvent.gitignoreInvoke) = some 0 ∧
    (generateTrace ["axum"] (some "documentation/") [] none).findIdx?
        (fun e => match e with
          | OrchEvent.taskScheduled _ => true
          | _ => false) = some 1 := by decide

/-- Claim C7 (amended): in every orchestrator run the gitignore merger is
invoked at most once, as a single call listing every repository's
derived entries at once; the invocation is issued before any
per-repository task is scheduled, and its completion is awaited only
after all repository tasks have been awaited, so no two writers ever
touch the shared gitignore file. -/
theorem gitignore_single_invocation_ordering (filteredNames : List String)
    (docsEntry : Option String) (docsSubDirEntries : List String)
    (indexEntry : Option String) :
    (generateTrace filteredNames docsEntry docsSubDirEntries indexEntry).count
        OrchEvent.gitignoreInvoke ≤ 1 ∧
    (∀ pre post,
      generateTrace filteredNames docsEntry docsSubDirEntries indexEntry =
          pre ++ OrchEvent.gitignoreInvoke :: post →
        ∀ n, OrchEvent.taskScheduled n ∉ pre) ∧
    (∃ pre, generateTrace filteredNames docsEntry docsSubDirEntries indexEntry =
      pre ++ [OrchEvent.awaitTasks, OrchEvent.awaitGitignore]) := by
  have hmapcount : (filteredNames.map OrchEvent.taskScheduled).count
      OrchEvent.gitignoreInvoke = 0 := by
    apply List.count_eq_zero.mpr
    intro hmem
    rcases List.mem_map.mp hmem with ⟨n, -, hn⟩
    exact OrchEvent.noConfusion hn
  have hmapnotmem : OrchEvent.gitignoreInvoke ∉
      filteredNames.map OrchEvent.taskScheduled := by
    intro hmem
    rcases List.mem_map.mp hmem with ⟨n, -, hn⟩
    exact OrchEvent.noConfusion hn
  refine ⟨?_, ?_, ?_⟩
  · unfold generateTrace
    rw [List.count_append, List.count_append, hmapcount]
    cases hflag : (docsEntry.isSome || !docsSubDirEntries.isEmpty || indexEntry.isSome) <;>
      simp
  · intro pre post heq n hmem
    unfold generateTrace at heq
    cases hflag : (docsEntry.isSome || !docsSubDirEntries.isEmpty || indexEntry.isSome)
    · rw [hflag] at heq
      simp only [Bool.false_eq_true, if_false, List.nil_append] at heq
      exfalso
      have hin : OrchEvent.gitignoreInvoke ∈
          filteredNames.map OrchEvent.taskScheduled ++
            [OrchEvent.awaitTasks, OrchEvent.awaitGitignore] := by
        rw [heq]
        exact List.mem_append_right pre (List.mem_cons_self _ _)
      rcases List.mem_append.mp hin with h | h
      · exact hmapnotmem h
      · simp at h
    · rw [hflag] at heq
      simp only [if_true, List.singleton_append] at heq
      cases pre with
      | nil => simp at hmem
      | cons p pre2 =>
        exfalso
        rw [List.cons_append] at heq
        have h2 := (List.cons.injEq _ _ _ _).mp heq
        have hin : OrchEvent.gitignoreInvoke ∈
            filteredNames.map OrchEvent.taskScheduled ++
              [OrchEvent.awaitTasks, OrchEvent.awaitGitignore] := by
          rw [h2.2]
          exact List.mem_append_right pre2 (List.mem_cons_self _ _)
        rcases List.mem_append.mp hin with h | h
        · exact hmapnotmem h
        · simp at h
  · refine ⟨(if docsEntry.isSome || !docsSubDirEntries.isEmpty || indexEntry.isSome then
      [OrchEvent.gitignoreInvoke] else []) ++ filteredNames.map OrchEvent.taskScheduled, ?_⟩
    unfold generateTrace
    rw [List.append_assoc]

/-- Witness for the amended C7: one repository with a docs entry. -/
theorem gitignore_single_invocation_ordering_witness :
    (generateTrace ["axum"] (some "documentation/") [] none).count
        OrchEvent.gitignoreInvoke ≤ 1 ∧
    (OrchEvent.taskScheduled "axum" ∉ ([] : List OrchEvent)) ∧
    (∃ pre, generateTrace ["axum"] (some "documentation/") [] none =
      pre ++ [OrchEvent.awaitTasks, OrchEvent.awaitGitignore]) :=
  ⟨(gitignore_single_invocation_ordering ["axum"] (some "documentation/") [] none).1,
    (gitignore_single_invocation_ordering ["axum"] (some "documentation/") [] none).2.1
      [] [OrchEvent.taskScheduled "axum", OrchEvent.awaitTasks, OrchEvent.awaitGitignore]
      (by decide) "axum",
    (gitignore_single_invocation_ordering ["axum"] (some "documentation/") [] none).2.2⟩


end Docpup
